import Mathlib

/-!
# Verification of the k-NN cross-validation core (`src/main.rs`)

Shallow embedding of the classification and evaluation pipeline of the
`rusty_neighbors` program.  Feature values (`f64` in the source) are idealized
as rationals; Euclidean distances, which pass through `f64::sqrt`, are
idealized as real numbers.  Fallible operations (Rust panics from
out-of-bounds indexing or remainder by zero) are modelled with `Option`,
`none` standing for the aborted computation.
-/

namespace RustyNeighbors

/-- `struct Flower` from src/main.rs: four numeric features and a class label.
The Rust field `class` is a Lean keyword, so it is rendered `cls` here. -/
structure Flower where
  sepal_length : ℚ
  sepal_width : ℚ
  petal_length : ℚ
  petal_width : ℚ
  cls : String
deriving DecidableEq

instance : Inhabited Flower := ⟨⟨0, 0, 0, 0, ""⟩⟩

/-- `Flower::rowify`: the feature vector as an ordered list. -/
def Flower.rowify (f : Flower) : List ℚ :=
  [f.sepal_length, f.sepal_width, f.petal_length, f.petal_width]

/-- `struct MeasuredFlower`: a distance paired with the training record's label.
The Rust field `class` is rendered `cls`. -/
structure MeasuredFlower where
  distance : ℝ
  cls : String

/-- `euclidean_distance`: square root of the sum of squared per-feature
differences, the sum accumulated exactly as the Rust loop does. -/
noncomputable def euclidean_distance (row1 row2 : Flower) : ℝ :=
  Real.sqrt ((((row1.rowify.zip row2.rowify).foldl
    (fun acc p => acc + (p.1 - p.2) ^ 2) 0 : ℚ) : ℝ))

/-- The ordering realized by `get_neighbors`' sort: the comparator
`b.distance.partial_cmp(&a.distance)` sorts descending by distance, so `a`
may come (weakly) before `b` exactly when `b.distance ≤ a.distance`. -/
def sortBefore (a b : MeasuredFlower) : Prop := b.distance ≤ a.distance

noncomputable instance : DecidableRel sortBefore :=
  fun a b => Real.decidableLE b.distance a.distance

instance : IsTotal MeasuredFlower sortBefore :=
  ⟨fun a b => le_total b.distance a.distance⟩

instance : IsTrans MeasuredFlower sortBefore :=
  ⟨fun _ _ _ hab hbc => le_trans hbc hab⟩

/-- The `distances` vector built by the first loop of `get_neighbors`:
one `MeasuredFlower` per training record, in training-set order. -/
noncomputable def annotate (train : List Flower) (test_row : Flower) :
    List MeasuredFlower :=
  train.map fun train_row => ⟨euclidean_distance test_row train_row, train_row.cls⟩

/-- The `distances` vector after `sort_by` (a stable descending sort, realized
here by `insertionSort` with the total preorder `sortBefore`, which produces
the unique stable result) followed by `reverse()`. -/
noncomputable def sortedDistances (train : List Flower) (test_row : Flower) :
    List MeasuredFlower :=
  (List.insertionSort sortBefore (annotate train test_row)).reverse

/-- `get_neighbors`: sorts the annotated training set and reads the first
`num_neighbors` labels; `none` models the index panic of `distances[i]` when
`num_neighbors` exceeds the training-set size. -/
noncomputable def get_neighbors (train : List Flower) (test_row : Flower)
    (num_neighbors : ℕ) : Option (List String) :=
  if num_neighbors ≤ (sortedDistances train test_row).length then
    some (((sortedDistances train test_row).take num_neighbors).map
      MeasuredFlower.cls)
  else none

/-- `accuracy_metric`: counts position-wise matches over `0..actual.len()`,
divides by `actual.len()` and scales to a percentage; `none` models the index
panic on `predicted[i]` when `predicted` is shorter than `actual`. -/
def accuracy_metric (actual predicted : List String) : Option ℚ :=
  if actual.length ≤ predicted.length then
    some ((((actual.zip predicted).countP fun pr => pr.1 == pr.2 : ℕ) : ℚ)
      / (actual.length : ℚ) * 100)
  else none

/-- The fold-assignment loop of `cross_validation_split`: the record with
overall index `i` is appended to fold `i % n`. -/
def cvAux (n : ℕ) : List Flower → ℕ → List (List Flower) → List (List Flower)
  | [], _, splits => splits
  | f :: rest, i, splits =>
      cvAux n rest (i + 1) (splits.set (i % n) (splits.getD (i % n) [] ++ [f]))

/-- `cross_validation_split`: `n_folds` initially-empty folds filled round
robin; `none` models the `i % 0` panic that fires as soon as the loop body
runs with `n_folds = 0`. -/
def cross_validation_split (dataset : List Flower) (n_folds : ℕ) :
    Option (List (List Flower)) :=
  if n_folds = 0 ∧ dataset ≠ [] then none
  else some (cvAux n_folds dataset 0 (List.replicate n_folds []))

/-- `evaluate_algorithm`: for each fold index the training set is the
concatenation of the remaining folds (`train_set.remove(i)` then `concat`)
and the test set is the held-out fold; per-fold scores come from
`accuracy_metric`. -/
def evaluate_algorithm (dataset : List Flower)
    (algorithm : List Flower → List Flower → ℕ → List String)
    (n_folds num_neighbors : ℕ) : Option (List ℚ) :=
  (cross_validation_split dataset n_folds).bind fun folds =>
    (List.range folds.length).mapM fun i =>
      accuracy_metric ((folds.getD i []).map Flower.cls)
        (algorithm ((folds.eraseIdx i).flatten) (folds.getD i []) num_neighbors)

/-- `normalize_dataset`: rescales each feature of each record by the first
four entries of `minmax`; `none` models the index panic when `minmax` has
fewer than four entries while the loop body runs. -/
def normalize_dataset (dataset : List Flower) (minmax : List (ℚ × ℚ)) :
    Option (List Flower) :=
  if dataset = [] then some []
  else if 4 ≤ minmax.length then
    some (dataset.map fun f =>
      { f with
        sepal_length := (f.sepal_length - (minmax.getD 0 (0, 0)).1) /
          ((minmax.getD 0 (0, 0)).2 - (minmax.getD 0 (0, 0)).1)
        sepal_width := (f.sepal_width - (minmax.getD 1 (0, 0)).1) /
          ((minmax.getD 1 (0, 0)).2 - (minmax.getD 1 (0, 0)).1)
        petal_length := (f.petal_length - (minmax.getD 2 (0, 0)).1) /
          ((minmax.getD 2 (0, 0)).2 - (minmax.getD 2 (0, 0)).1)
        petal_width := (f.petal_width - (minmax.getD 3 (0, 0)).1) /
          ((minmax.getD 3 (0, 0)).2 - (minmax.getD 3 (0, 0)).1) })
  else none

/-- `dataset_minmax`, exactly as written: for each column index `i` and each
record index `j` the accumulators are re-initialized from record 0 and one
pair is pushed, so the output has one pair per (column, record) combination;
`none` models the `dataset[0]` panic on an empty dataset. -/
def dataset_minmax (dataset : List Flower) : Option (List (ℚ × ℚ)) :=
  match dataset with
  | [] => none
  | d0 :: _ =>
      some ((List.range d0.rowify.length).flatMap fun i =>
        (List.range dataset.length).map fun j =>
          let min0 := d0.rowify.getD i 0
          let max0 := d0.rowify.getD i 0
          let value := (dataset.getD j default).rowify.getD i 0
          if value < min0 then (value, max0)
          else if max0 < value then (min0, value)
          else (min0, max0))

/-! ## Concrete records used as test inputs -/

def fA : Flower := ⟨0, 0, 0, 0, "a"⟩

def fB : Flower := ⟨1, 1, 1, 1, "b"⟩

/-- A four-record dataset in which each of the four feature columns is
non-constant. -/
def g0 : Flower := ⟨0, 5, 1, 2, "a"⟩

def g1 : Flower := ⟨1, 4, 0, 3, "b"⟩

def g2 : Flower := ⟨2, 3, 2, 0, "c"⟩

def g3 : Flower := ⟨3, 1, 3, 1, "d"⟩

def gDataset : List Flower := [g0, g1, g2, g3]

/-! ## C10, C1, C2: `dataset_minmax` and normalization -/

/-- C10: `dataset_minmax` fails on the empty dataset — it indexes record 0
unconditionally — and succeeds on every non-empty dataset, so non-emptiness
is a necessary (and sufficient) precondition that the spec never states for
`compute_minmax`. -/
theorem dataset_minmax_empty_fails :
    dataset_minmax [] = none
      ∧ ∀ f rest, (dataset_minmax (f :: rest)).isSome = true :=
  ⟨rfl, fun _ _ => rfl⟩

/-- C1: on a two-record dataset `dataset_minmax` returns eight pairs — one per
(column, record) combination — not the four per-column (min, max) pairs the
spec's `compute_minmax` contract promises, because the accumulators are
re-initialized and pushed inside the inner loop. -/
theorem dataset_minmax_two_records :
    dataset_minmax [fA, fB]
        = some [(0, 0), (0, 1), (0, 0), (0, 1), (0, 0), (0, 1), (0, 0), (0, 1)]
      ∧ (dataset_minmax [fA, fB]).map List.length ≠ some 4 := by
  constructor
  · decide
  · decide

/-- C2: on a dataset whose four columns are all non-constant (witnessed by the
pairwise-different column entries of `g0` and `g1`), normalizing with the
statistics produced by `dataset_minmax` yields sepal-width values `[5, 4, 3, 1]`
for the four records: the value `5` lies outside `[0, 1]`, because entries
`1..3` of the minmax vector are column-0 pairs, not column aggregates. -/
theorem normalize_after_minmax_out_of_range :
    ((dataset_minmax gDataset).bind fun mm => normalize_dataset gDataset mm).map
        (List.map Flower.sepal_width) = some [5, 4, 3, 1]
      ∧ ¬ ((5 : ℚ) ≤ 1)
      ∧ g0.sepal_length ≠ g1.sepal_length
      ∧ g0.sepal_width ≠ g1.sepal_width
      ∧ g0.petal_length ≠ g1.petal_length
      ∧ g0.petal_width ≠ g1.petal_width := by
  have hmm : dataset_minmax gDataset = some [(0, 0), (0, 1), (0, 2), (0, 3),
      (5, 5), (4, 5), (3, 5), (1, 5), (1, 1), (0, 1), (1, 2), (1, 3),
      (2, 2), (2, 3), (0, 2), (1, 2)] := by decide
  refine ⟨?_, by decide, by decide, by decide, by decide, by decide⟩
  rw [hmm]
  norm_num [normalize_dataset, gDataset, g0, g1, g2, g3]
  refine ⟨[⟨0, 5, 1/2, 2/3, "a"⟩, ⟨0, 4, 0, 1, "b"⟩,
      ⟨0, 3, 1, 0, "c"⟩, ⟨0, 1, 3/2, 1/3, "d"⟩], ?_, ?_⟩
  · rw [if_neg (by decide)]
  · norm_num [Flower.sepal_width]

/-! ## C5, C6: `accuracy_metric` -/

/-- C5 counterexample: `actual = ["a"]` and `predicted = ["a", "b"]` have
different lengths, yet `accuracy_metric` returns `some 100` instead of
failing — the trailing element of the longer sequence is silently ignored. -/
theorem accuracy_metric_longer_cex :
    accuracy_metric ["a"] ["a", "b"] = some 100
      ∧ (["a"] : List String).length ≠ (["a", "b"] : List String).length := by
  constructor
  · norm_num [accuracy_metric, List.countP_cons]
  · decide

/-- C6 counterexample: for the equal-length pair `([], [])` every position-wise
pair of labels matches (the two lists are equal), yet the result is `some 0`,
not `some 100`, so the claimed "equals 100 iff all entries match" fails at the
empty input (in the actual `f64` code the value is even `0.0 / 0.0 = NaN`). -/
theorem accuracy_metric_empty_cex :
    accuracy_metric [] [] = some 0
      ∧ accuracy_metric [] [] ≠ some 100
      ∧ ([] : List String) = [] := by
  refine ⟨by norm_num [accuracy_metric], by norm_num [accuracy_metric], rfl⟩

/-! ## C3: `evaluate_algorithm` with a single fold -/

/-- C3 counterexample: with `n_folds = 1` and the one-record dataset `[fA]`,
an algorithm that outputs one label per *training* record receives an empty
training set, returns no predictions, and scoring aborts (`none`).  Had the
round trained on the test fold itself, the same algorithm would have produced
`["a"]` and scored `some 100` (second conjunct). -/
theorem evaluate_one_fold_cex :
    evaluate_algorithm [fA] (fun train _ _ => train.map Flower.cls) 1 5 = none
      ∧ accuracy_metric ([fA].map Flower.cls)
          ((fun (train : List Flower) (_ : List Flower) (_ : ℕ) =>
            train.map Flower.cls) [fA] [fA] 5) = some 100 := by
  constructor
  · decide
  · norm_num [accuracy_metric, List.countP_cons, fA]

/-! ## C5, C6 amended: length handling and bounds of `accuracy_metric` -/

/-- Zipping against a truncation of the second list to the first list's length
is the same as zipping against the full second list. -/
lemma zip_take_self : ∀ a p : List String, a.zip (p.take a.length) = a.zip p
  | [], _ => by simp
  | _ :: _, [] => by simp
  | x :: a, y :: p => by
      simp only [List.length_cons, List.take_succ_cons, List.zip_cons_cons]
      rw [zip_take_self a p]

/-- C5 amended: `accuracy_metric` aborts exactly when `predicted` is shorter
than `actual`; it does not abort when `predicted` is strictly longer — the
trailing elements of `predicted` are silently ignored, so the result equals
the one computed from `predicted` truncated to `actual`'s length. -/
theorem accuracy_metric_mismatch (actual predicted : List String) :
    (accuracy_metric actual predicted = none ↔ predicted.length < actual.length)
      ∧ accuracy_metric actual predicted
          = accuracy_metric actual (predicted.take actual.length) := by
  constructor
  · rw [accuracy_metric]
    split
    · simp
      omega
    · simp
      omega
  · rw [accuracy_metric, accuracy_metric, zip_take_self]
    rcases le_or_lt actual.length predicted.length with h | h
    · rw [if_pos h, if_pos (by simp; omega)]
    · rw [if_neg (by omega), if_neg (by simp; omega)]

/-- The zip-based match count reaches `actual`'s length exactly when the two
equal-length lists agree position-wise, i.e. are equal. -/
lemma countP_zip_eq_length_iff :
    ∀ a p : List String, a.length = p.length →
      (((a.zip p).countP fun pr => pr.1 == pr.2) = a.length ↔ a = p)
  | [], [], _ => by simp
  | [], _ :: _, h => by simp at h
  | _ :: _, [], h => by simp at h
  | x :: a, y :: p, h => by
      have h' : a.length = p.length := by simpa using h
      have hle : (a.zip p).countP (fun pr => pr.1 == pr.2) ≤ a.length := by
        calc (a.zip p).countP (fun pr => pr.1 == pr.2) ≤ (a.zip p).length :=
            List.countP_le_length _
          _ ≤ a.length := by rw [List.length_zip]; omega
      by_cases hxy : x = y
      · subst hxy
        simp only [List.zip_cons_cons, List.countP_cons, beq_self_eq_true,
          if_true, List.length_cons, List.cons.injEq, true_and]
        rw [← countP_zip_eq_length_iff a p h']
        omega
      · apply iff_of_false
        · simp only [List.zip_cons_cons, List.countP_cons, List.length_cons]
          rw [if_neg (by simpa using hxy)]
          omega
        · simp [hxy]

/-- C6 amended: for every pair of equal-length *non-empty* label sequences,
`accuracy_metric` returns a value in `[0, 100]`, equal to 100 iff every
position-wise pair of labels matches (the sequences are equal), and equal to 0
iff no position matches.  (The original claim fails for the empty pair, where
the code divides 0 by 0.) -/
theorem accuracy_metric_bounds (actual predicted : List String)
    (hlen : actual.length = predicted.length) (hne : actual ≠ []) :
    ∃ q, accuracy_metric actual predicted = some q
      ∧ 0 ≤ q ∧ q ≤ 100
      ∧ (q = 100 ↔ actual = predicted)
      ∧ (q = 0 ↔ ∀ pr ∈ actual.zip predicted, pr.1 ≠ pr.2) := by
  have hL : 0 < actual.length := List.length_pos.mpr hne
  have hLq : (0 : ℚ) < (actual.length : ℚ) := by exact_mod_cast hL
  have hc_le : (actual.zip predicted).countP (fun pr => pr.1 == pr.2)
      ≤ actual.length := by
    calc (actual.zip predicted).countP (fun pr => pr.1 == pr.2)
        ≤ (actual.zip predicted).length := List.countP_le_length _
      _ ≤ actual.length := by rw [List.length_zip]; omega
  have hcq : (((actual.zip predicted).countP fun pr => pr.1 == pr.2 : ℕ) : ℚ)
      ≤ (actual.length : ℚ) := by exact_mod_cast hc_le
  refine ⟨_, by rw [accuracy_metric, if_pos (by omega)], ?_, ?_, ?_, ?_⟩
  · positivity
  · rw [div_mul_eq_mul_div, div_le_iff₀ hLq]
    nlinarith
  · rw [div_mul_eq_mul_div, div_eq_iff (ne_of_gt hLq)]
    have hiff : ((((actual.zip predicted).countP fun pr => pr.1 == pr.2 : ℕ) : ℚ)
        * 100 = 100 * (actual.length : ℚ))
        ↔ ((actual.zip predicted).countP fun pr => pr.1 == pr.2)
            = actual.length := by
      constructor
      · intro hq
        have hclq : (((actual.zip predicted).countP fun pr => pr.1 == pr.2 : ℕ) : ℚ)
            = (actual.length : ℚ) := by linarith
        exact_mod_cast hclq
      · intro hq
        rw [hq]; ring
    rw [hiff]
    exact countP_zip_eq_length_iff actual predicted hlen
  · have hzero : (((actual.zip predicted).countP fun pr => pr.1 == pr.2 : ℕ) : ℚ)
        / (actual.length : ℚ) * 100 = 0
        ↔ ((actual.zip predicted).countP fun pr => pr.1 == pr.2) = 0 := by
      rw [div_mul_eq_mul_div, div_eq_zero_iff]
      constructor
      · rintro (hc | hc)
        · rcases mul_eq_zero.mp hc with hc' | hc'
          · exact_mod_cast hc'
          · norm_num at hc'
        · exact absurd hc (ne_of_gt hLq)
      · intro hc
        rw [hc]
        norm_num
    rw [hzero, List.countP_eq_zero]
    simp

/-- Witness for `accuracy_metric_bounds` at the concrete matching pair
`(["x"], ["x"])`. -/
theorem accuracy_metric_bounds_witness :
    ∃ q, accuracy_metric ["x"] ["x"] = some q
      ∧ 0 ≤ q ∧ q ≤ 100
      ∧ (q = 100 ↔ (["x"] : List String) = ["x"])
      ∧ (q = 0 ↔ ∀ pr ∈ (["x"] : List String).zip ["x"], pr.1 ≠ pr.2) :=
  accuracy_metric_bounds ["x"] ["x"] rfl (by decide)

/-! ## C3 amended: the single-fold round of `evaluate_algorithm` -/

/-- With a single fold every record lands in fold 0, so the accumulator grows
by the whole remaining list. -/
lemma cvAux_one (l : List Flower) (i : ℕ) (acc : List Flower) :
    cvAux 1 l i [acc] = [acc ++ l] := by
  induction l generalizing i acc with
  | nil => simp [cvAux]
  | cons f rest ih => simp [cvAux, Nat.mod_one, ih]

/-- C3 amended: with `n_folds = 1` the single round's training set is the
*empty* concatenation of the zero remaining folds, and the test set is the
whole dataset: the algorithm is called as `algorithm [] dataset k`, not with
the fold itself as training data. -/
theorem evaluate_one_fold (dataset : List Flower)
    (algorithm : List Flower → List Flower → ℕ → List String) (k : ℕ) :
    evaluate_algorithm dataset algorithm 1 k
      = (accuracy_metric (dataset.map Flower.cls) (algorithm [] dataset k)).map
          fun s => [s] := by
  have hsplit : cross_validation_split dataset 1 = some [dataset] := by
    rw [cross_validation_split, if_neg (by simp)]
    have hrep : List.replicate 1 ([] : List Flower) = [[]] := rfl
    rw [hrep, cvAux_one, List.nil_append]
  rw [evaluate_algorithm, hsplit]
  show (List.range 1).mapM _ = _
  have hr1 : List.range 1 = [0] := rfl
  rw [hr1]
  cases h : accuracy_metric (dataset.map Flower.cls) (algorithm [] dataset k) with
  | none => simp [List.mapM.loop, List.eraseIdx, h]
  | some q => simp [List.mapM.loop, List.eraseIdx, h]

/-! ## C4: tie order in `get_neighbors` -/

/-- Inserting `a` into `l` commutes with filtering by a predicate whose
holders all sort (weakly) before everything `a` itself satisfies: the filter
of the insertion prepends `a` (when selected) to the filter of `l`. -/
lemma filter_orderedInsert (p : MeasuredFlower → Bool) (a : MeasuredFlower)
    (hp : ∀ b, p a = true → p b = true → sortBefore a b)
    (l : List MeasuredFlower) :
    (List.orderedInsert sortBefore a l).filter p
      = if p a then a :: l.filter p else l.filter p := by
  induction l with
  | nil => cases h : p a <;> simp [List.orderedInsert, h]
  | cons b t ih =>
    by_cases hr : sortBefore a b
    · rw [List.orderedInsert, if_pos hr]
      cases ha : p a <;> cases hb : p b <;>
        simp [List.filter_cons, ha, hb]
    · rw [List.orderedInsert, if_neg hr]
      cases ha : p a with
      | false =>
          cases hb : p b <;> simp [List.filter_cons, ha, hb, ih]
      | true =>
          have hb : p b = false := by
            cases hbb : p b
            · rfl
            · exact absurd (hp b ha hbb) hr
          simp [List.filter_cons, ha, hb, ih]

/-- Stability of the insertion sort on any class of mutually tied elements:
filtering the sorted list by a predicate whose holders are pairwise related
both ways gives the same list as filtering the input. -/
lemma filter_insertionSort (p : MeasuredFlower → Bool)
    (hp : ∀ a b, p a = true → p b = true → sortBefore a b)
    (l : List MeasuredFlower) :
    (List.insertionSort sortBefore l).filter p = l.filter p := by
  induction l with
  | nil => rfl
  | cons a t ih =>
    show (List.orderedInsert sortBefore a
      (List.insertionSort sortBefore t)).filter p = _
    rw [filter_orderedInsert p a (fun b hb => hp a b hb) _, ih]
    cases ha : p a <;> simp [List.filter_cons, ha]

/-- C4 amended: `get_neighbors`' sorted vector keeps equal-distance records in
the *reverse* of their input order: restricted to any fixed distance `d`, the
sorted list is the reversal of the annotated input.  (The stable sort runs
descending via the flipped comparator, and the subsequent `reverse()` flips
each class of ties.) -/
theorem sortedDistances_ties_reversed (train : List Flower) (q : Flower)
    (d : ℝ) :
    (sortedDistances train q).filter (fun m => decide (m.distance = d))
      = ((annotate train q).filter
          (fun m => decide (m.distance = d))).reverse := by
  rw [sortedDistances, List.filter_reverse]
  rw [filter_insertionSort _ ?_]
  intro a b ha hb
  have ha' : a.distance = d := of_decide_eq_true ha
  have hb' : b.distance = d := of_decide_eq_true hb
  show b.distance ≤ a.distance
  rw [ha', hb']

/-- The two equidistant training records for the tie counterexample. -/
def tie1 : Flower := ⟨0, 0, 0, 0, "b1"⟩

def tie2 : Flower := ⟨0, 0, 0, 0, "b2"⟩

def tieQuery : Flower := ⟨0, 0, 0, 0, "q"⟩

lemma dist_tie1 : euclidean_distance tieQuery tie1 = 0 := by
  have h : ((tieQuery.rowify.zip tie1.rowify).foldl
      (fun acc p => acc + (p.1 - p.2) ^ 2) 0 : ℚ) = 0 := by
    norm_num [tieQuery, tie1, Flower.rowify]
  rw [euclidean_distance, h]
  simp

lemma dist_tie2 : euclidean_distance tieQuery tie2 = 0 := by
  have h : ((tieQuery.rowify.zip tie2.rowify).foldl
      (fun acc p => acc + (p.1 - p.2) ^ 2) 0 : ℚ) = 0 := by
    norm_num [tieQuery, tie2, Flower.rowify]
  rw [euclidean_distance, h]
  simp

/-- C4 counterexample: the training records `tie1` (label "b1") and `tie2`
(label "b2") are both at distance 0 from the query, and `get_neighbors`
returns their labels in *reversed* input order `["b2", "b1"]`, not the
input order `["b1", "b2"]` the claim's stable-sort tie policy dictates. -/
theorem get_neighbors_tie_cex :
    get_neighbors [tie1, tie2] tieQuery 2 = some ["b2", "b1"]
      ∧ (["b2", "b1"] : List String) ≠ ["b1", "b2"] := by
  constructor
  · have hann : annotate [tie1, tie2] tieQuery
        = [⟨euclidean_distance tieQuery tie1, "b1"⟩,
           ⟨euclidean_distance tieQuery tie2, "b2"⟩] := rfl
    have hone : List.insertionSort sortBefore [(⟨0, "b2"⟩ : MeasuredFlower)]
        = [⟨0, "b2"⟩] := rfl
    have hins : List.insertionSort sortBefore
        [(⟨0, "b1"⟩ : MeasuredFlower), ⟨0, "b2"⟩] = [⟨0, "b1"⟩, ⟨0, "b2"⟩] := by
      show List.orderedInsert sortBefore ⟨0, "b1"⟩
        (List.insertionSort sortBefore [⟨0, "b2"⟩]) = _
      rw [hone, List.orderedInsert,
        if_pos (show sortBefore ⟨0, "b1"⟩ ⟨0, "b2"⟩ from le_refl (0 : ℝ))]
    have h2 : sortedDistances [tie1, tie2] tieQuery
        = [⟨0, "b2"⟩, ⟨0, "b1"⟩] := by
      rw [sortedDistances, hann, dist_tie1, dist_tie2, hins]
      rfl
    rw [get_neighbors, h2]
    rfl
  · decide

/-! ## C8, C9: `get_neighbors` count, order and overflow -/

/-- The sorted distance vector has one entry per training record. -/
lemma length_sortedDistances (train : List Flower) (q : Flower) :
    (sortedDistances train q).length = train.length := by
  rw [sortedDistances, List.length_reverse,
    List.length_insertionSort, annotate, List.length_map]

/-- The sorted distance vector is ascending in distance. -/
lemma sortedDistances_sorted (train : List Flower) (q : Flower) :
    (sortedDistances train q).Sorted fun a b => a.distance ≤ b.distance := by
  have hs : (List.insertionSort sortBefore (annotate train q)).Sorted sortBefore :=
    List.sorted_insertionSort sortBefore (annotate train q)
  rw [sortedDistances]
  exact List.pairwise_reverse.mpr (hs.imp fun h => h)

/-- The sorted distance vector is a permutation of the annotated input. -/
lemma sortedDistances_perm (train : List Flower) (q : Flower) :
    (sortedDistances train q).Perm (annotate train q) :=
  (List.reverse_perm _).trans (List.perm_insertionSort _ _)

/-- C8: for `1 ≤ k ≤ |train|`, `get_neighbors` returns exactly `k` labels,
namely the labels of the first `k` entries of an ascending-by-distance
permutation of the annotated training set, in ascending-distance order; every
selected entry's distance is at most every unselected entry's distance ("the
k closest", up to the arbitrary cut between tied records). -/
theorem get_neighbors_k_closest (train : List Flower) (q : Flower) (k : ℕ)
    (hk1 : 1 ≤ k) (hk : k ≤ train.length) :
    ∃ l : List MeasuredFlower,
      l.Perm (annotate train q)
        ∧ l.Sorted (fun a b => a.distance ≤ b.distance)
        ∧ get_neighbors train q k = some ((l.take k).map MeasuredFlower.cls)
        ∧ ((l.take k).map MeasuredFlower.cls).length = k
        ∧ ∀ x ∈ l.take k, ∀ y ∈ l.drop k, x.distance ≤ y.distance := by
  refine ⟨sortedDistances train q, sortedDistances_perm train q,
    sortedDistances_sorted train q, ?_, ?_, ?_⟩
  · rw [get_neighbors, if_pos (by rw [length_sortedDistances]; exact hk)]
  · rw [List.length_map, List.length_take, length_sortedDistances]
    omega
  · intro x hx y hy
    have hs := sortedDistances_sorted train q
    rw [← List.take_append_drop k (sortedDistances train q)] at hs
    exact (List.pairwise_append.mp hs).2.2 x hx y hy

/-- Witness for `get_neighbors_k_closest` with the one-record training set
`[fA]`, query `fB` and `k = 1`. -/
theorem get_neighbors_k_closest_witness :
    ∃ l : List MeasuredFlower,
      l.Perm (annotate [fA] fB)
        ∧ l.Sorted (fun a b => a.distance ≤ b.distance)
        ∧ get_neighbors [fA] fB 1 = some ((l.take 1).map MeasuredFlower.cls)
        ∧ ((l.take 1).map MeasuredFlower.cls).length = 1
        ∧ ∀ x ∈ l.take 1, ∀ y ∈ l.drop 1, x.distance ≤ y.distance :=
  get_neighbors_k_closest [fA] fB 1 (by decide) (by decide)

/-- C9: whenever `k` exceeds the training-set size, `get_neighbors` hits the
out-of-bounds index panic (modelled `none`): no truncated list is returned. -/
theorem get_neighbors_overflow (train : List Flower) (q : Flower) (k : ℕ)
    (h : train.length < k) : get_neighbors train q k = none := by
  rw [get_neighbors, if_neg (by rw [length_sortedDistances]; omega)]

/-- Witness for `get_neighbors_overflow`: an empty training set with `k = 1`. -/
theorem get_neighbors_overflow_witness :
    get_neighbors [] fA 1 = none ∧ ([] : List Flower).length < 1 :=
  ⟨get_neighbors_overflow [] fA 1 (by decide), by decide⟩

/-! ## C7: the fold partition of `cross_validation_split` -/

/-- `cvAux` never changes the number of folds. -/
lemma cvAux_length (n : ℕ) :
    ∀ (l : List Flower) (i : ℕ) (splits : List (List Flower)),
      (cvAux n l i splits).length = splits.length
  | [], _, _ => rfl
  | f :: rest, i, splits => by
      simp only [cvAux]
      rw [cvAux_length n rest (i + 1) _, List.length_set]

/-- Fold content of `cvAux`: fold `j` receives, appended to its existing
content, exactly the records of `l` whose overall index `i0 + t` is congruent
to `j` modulo `n`, in input order. -/
lemma cvAux_getD (n : ℕ) (hn : 0 < n) :
    ∀ (l : List Flower) (i0 : ℕ) (splits : List (List Flower)),
      splits.length = n → ∀ j, j < n →
      (cvAux n l i0 splits).getD j []
        = splits.getD j []
          ++ (((List.range l.length).filter fun t => (i0 + t) % n == j).map
              fun t => l.getD t default)
  | [], i0, splits, hs, j, hj => by simp [cvAux]
  | f :: rest, i0, splits, hs, j, hj => by
      have hmodlt : i0 % n < splits.length := by rw [hs]; exact Nat.mod_lt _ hn
      simp only [cvAux]
      rw [cvAux_getD n hn rest (i0 + 1) _ (by rw [List.length_set]; exact hs) j hj]
      have hcong : (List.range rest.length).filter
            ((fun t => (i0 + t) % n == j) ∘ Nat.succ)
          = (List.range rest.length).filter fun t => (i0 + 1 + t) % n == j := by
        apply List.filter_congr
        intro t _
        have h1 : i0 + Nat.succ t = i0 + 1 + t := by omega
        simp [Function.comp, h1]
      simp only [List.length_cons, List.range_succ_eq_map, List.filter_cons]
      by_cases hj0 : i0 % n = j
      · subst hj0
        rw [if_pos (by simp)]
        rw [List.getD_eq_getElem?_getD, List.getElem?_set_self hmodlt]
        simp only [Option.getD_some]
        rw [List.map_cons, List.filter_map, hcong, List.map_map,
          List.getD_cons_zero, List.append_assoc]
        rfl
      · rw [if_neg (by simp [hj0])]
        rw [List.getD_eq_getElem?_getD,
          List.getElem?_set_ne (fun hcontra => hj0 hcontra),
          ← List.getD_eq_getElem?_getD]
        rw [List.filter_map, hcong, List.map_map]
        rfl

/-- Replacing fold `r` by itself extended with one record permutes the
flattening into the old flattening followed by that record. -/
lemma flatten_set_append (f : Flower) :
    ∀ (splits : List (List Flower)) (r : ℕ), r < splits.length →
      ((splits.set r (splits.getD r [] ++ [f])).flatten).Perm
        (splits.flatten ++ [f])
  | [], r, h => by simp at h
  | s :: ss, 0, _ => by
      simp only [List.set_cons_zero, List.getD_cons_zero, List.flatten_cons]
      rw [List.append_assoc, List.append_assoc]
      exact List.Perm.append_left s List.perm_append_comm
  | s :: ss, r + 1, h => by
      simp only [List.set_cons_succ, List.getD_cons_succ, List.flatten_cons]
      have hperm := flatten_set_append f ss r (by simpa using h)
      have h2 := List.Perm.append_left s hperm
      rwa [← List.append_assoc] at h2

/-- Flattening the folds built by `cvAux` permutes the initial content
followed by all routed records. -/
lemma cvAux_flatten (n : ℕ) (hn : 0 < n) :
    ∀ (l : List Flower) (i0 : ℕ) (splits : List (List Flower)),
      splits.length = n →
      ((cvAux n l i0 splits).flatten).Perm (splits.flatten ++ l)
  | [], i0, splits, hs => by simp [cvAux]
  | f :: rest, i0, splits, hs => by
      simp only [cvAux]
      have h1 := cvAux_flatten n hn rest (i0 + 1)
        (splits.set (i0 % n) (splits.getD (i0 % n) [] ++ [f]))
        (by rw [List.length_set]; exact hs)
      have h2 := flatten_set_append f splits (i0 % n)
        (by rw [hs]; exact Nat.mod_lt _ hn)
      have h3 := h1.trans (h2.append_right rest)
      rwa [List.append_assoc, List.singleton_append] at h3

lemma flatten_replicate_nil :
    ∀ m : ℕ, (List.replicate m ([] : List Flower)).flatten = []
  | 0 => rfl
  | m + 1 => by
      rw [List.replicate_succ, List.flatten_cons, List.nil_append,
        flatten_replicate_nil m]

lemma getD_replicate_nil :
    ∀ m j : ℕ, (List.replicate m ([] : List Flower)).getD j [] = []
  | 0, 0 => rfl
  | 0, _ + 1 => rfl
  | m + 1, 0 => rfl
  | m + 1, j + 1 => by
      rw [List.replicate_succ, List.getD_cons_succ]
      exact getD_replicate_nil m j

/-- With a positive fold count the split cannot hit the `i % 0` panic. -/
lemma cross_validation_split_eq (dataset : List Flower) (n : ℕ) (hn : 0 < n) :
    cross_validation_split dataset n
      = some (cvAux n dataset 0 (List.replicate n [])) := by
  rw [cross_validation_split, if_neg]
  rintro ⟨h0, -⟩
  omega

/-- Content of the folds produced by `cross_validation_split`: fold `j` holds
exactly the records whose index is congruent to `j` modulo `n`, in order. -/
lemma cross_validation_getD (dataset : List Flower) (n : ℕ) (hn : 0 < n)
    (j : ℕ) (hj : j < n) :
    (cvAux n dataset 0 (List.replicate n [])).getD j []
      = ((List.range dataset.length).filter fun i => i % n == j).map
          fun i => dataset.getD i default := by
  rw [cvAux_getD n hn dataset 0 (List.replicate n []) (by simp) j hj]
  rw [getD_replicate_nil, List.nil_append]
  refine congrArg _ (List.filter_congr ?_)
  intro t _
  rw [Nat.zero_add]

/-- The number of indices below `m` congruent to `j` modulo `n`. -/
lemma count_residue (n j : ℕ) (hn : 0 < n) (hj : j < n) :
    ∀ m : ℕ, ((List.range m).filter fun i => i % n == j).length
      = m / n + if j < m % n then 1 else 0
  | 0 => by simp
  | m + 1 => by
      rw [List.range_succ, List.filter_append, List.length_append,
        count_residue n j hn hj m]
      have hdm := Nat.div_add_mod m n
      have hrlt : m % n < n := Nat.mod_lt _ hn
      have key : ∀ q r, r < n → (n * q + r) / n = q ∧ (n * q + r) % n = r := by
        intro q r hr
        constructor
        · rw [Nat.mul_add_div hn, Nat.div_eq_of_lt hr, Nat.add_zero]
        · rw [Nat.mul_add_mod, Nat.mod_eq_of_lt hr]
      by_cases hc : m % n + 1 = n
      · have e1 : m + 1 = n * (m / n + 1) + 0 := by rw [Nat.mul_succ]; omega
        have hdiv : (m + 1) / n = m / n + 1 := by
          rw [e1]; exact (key (m / n + 1) 0 hn).1
        have hmod : (m + 1) % n = 0 := by
          rw [e1]; exact (key (m / n + 1) 0 hn).2
        rw [hdiv, hmod]
        by_cases hmj : m % n = j
        · simp only [List.filter_cons, List.filter_nil, beq_iff_eq, hmj,
            if_true, List.length_cons, List.length_nil]
          split_ifs <;> omega
        · simp only [List.filter_cons, List.filter_nil, beq_iff_eq, hmj,
            if_false, List.length_nil]
          split_ifs <;> omega
      · have hlt : m % n + 1 < n := by omega
        have e2 : m + 1 = n * (m / n) + (m % n + 1) := by omega
        have hdiv : (m + 1) / n = m / n := by
          rw [e2]; exact (key (m / n) (m % n + 1) hlt).1
        have hmod : (m + 1) % n = m % n + 1 := by
          rw [e2]; exact (key (m / n) (m % n + 1) hlt).2
        rw [hdiv, hmod]
        by_cases hmj : m % n = j
        · simp only [List.filter_cons, List.filter_nil, beq_iff_eq, hmj,
            if_true, List.length_cons, List.length_nil]
          split_ifs <;> omega
        · simp only [List.filter_cons, List.filter_nil, beq_iff_eq, hmj,
            if_false, List.length_nil]
          split_ifs <;> omega

/-- C7: for `1 ≤ n_folds ≤ |dataset|`, `cross_validation_split` succeeds with
exactly `n_folds` folds; fold `j` consists exactly of the records whose index
is congruent to `j` modulo `n_folds` in input order (so record `i` lands in
fold `i % n_folds` and the folds are disjoint as an index partition); the
flattened folds are a permutation (multiset equality) of the dataset; and each
fold's size is the floor or the ceiling of `|dataset| / n_folds`. -/
theorem cross_validation_split_partition (dataset : List Flower) (n_folds : ℕ)
    (h1 : 1 ≤ n_folds) (h2 : n_folds ≤ dataset.length) :
    ∃ folds,
      cross_validation_split dataset n_folds = some folds
        ∧ folds.length = n_folds
        ∧ (∀ j, j < n_folds →
            folds.getD j []
              = ((List.range dataset.length).filter
                  fun i => i % n_folds == j).map fun i => dataset.getD i default)
        ∧ (∀ i, i < dataset.length →
            dataset.getD i default ∈ folds.getD (i % n_folds) [])
        ∧ (folds.flatten).Perm dataset
        ∧ (∀ j, j < n_folds →
            (folds.getD j []).length = dataset.length / n_folds
              ∨ (folds.getD j []).length
                  = (dataset.length + n_folds - 1) / n_folds) := by
  have hn : 0 < n_folds := h1
  refine ⟨cvAux n_folds dataset 0 (List.replicate n_folds []),
    cross_validation_split_eq dataset n_folds hn, ?_, ?_, ?_, ?_, ?_⟩
  · rw [cvAux_length, List.length_replicate]
  · intro j hj
    exact cross_validation_getD dataset n_folds hn j hj
  · intro i hi
    have hj : i % n_folds < n_folds := Nat.mod_lt _ hn
    rw [cross_validation_getD dataset n_folds hn _ hj]
    refine List.mem_map.mpr ⟨i, ?_, rfl⟩
    refine List.mem_filter.mpr ⟨List.mem_range.mpr hi, ?_⟩
    simp
  · have h := cvAux_flatten n_folds hn dataset 0 (List.replicate n_folds [])
      (by simp)
    rwa [flatten_replicate_nil, List.nil_append] at h
  · intro j hj
    rw [cross_validation_getD dataset n_folds hn j hj, List.length_map,
      count_residue n_folds j hn hj dataset.length]
    by_cases hcase : j < dataset.length % n_folds
    · right
      have hceil : (dataset.length + n_folds - 1) / n_folds
          = dataset.length / n_folds + 1 := by
        have hdm := Nat.div_add_mod dataset.length n_folds
        have hrlt : dataset.length % n_folds < n_folds := Nat.mod_lt _ hn
        have e : dataset.length + n_folds - 1
            = n_folds * (dataset.length / n_folds + 1)
              + (dataset.length % n_folds - 1) := by
          rw [Nat.mul_succ]; omega
        have hlt1 : dataset.length % n_folds - 1 < n_folds := by omega
        rw [e, Nat.mul_add_div hn, Nat.div_eq_of_lt hlt1, Nat.add_zero]
      rw [hceil]
      simp [hcase]
    · left
      simp [hcase]

/-- Witness for `cross_validation_split_partition` on the two-record dataset
`[fA, fB]` with two folds. -/
theorem cross_validation_split_partition_witness :
    ∃ folds,
      cross_validation_split [fA, fB] 2 = some folds
        ∧ folds.length = 2
        ∧ (∀ j, j < 2 →
            folds.getD j []
              = ((List.range (List.length [fA, fB])).filter
                  fun i => i % 2 == j).map fun i => [fA, fB].getD i default)
        ∧ (∀ i, i < List.length [fA, fB] →
            [fA, fB].getD i default ∈ folds.getD (i % 2) [])
        ∧ (folds.flatten).Perm [fA, fB]
        ∧ (∀ j, j < 2 →
            (folds.getD j []).length = List.length [fA, fB] / 2
              ∨ (folds.getD j []).length = (List.length [fA, fB] + 2 - 1) / 2) :=
  cross_validation_split_partition [fA, fB] 2 (by decide) (by decide)

end RustyNeighbors
